import Mathlib

/-!
A verification development for the retrieval fusion and reasoning engine in
backend/retrieval_service: the fusion code in search_utils.py and
core/rag.py, the reference resolver in search/reference.py, and the ReAct
loop in core/react.py.

Modelling conventions. Python strings are lists of characters, Python floats
are rationals, dictionaries keyed by strings are association lists, and the
Supabase store is an explicit list of rows. The external collaborators (the
per-signal search primitives, the embedding service and the language model)
are parameters of the embedded functions: a fallible external call is an
Option value, none standing for a call that raised. Python dicts preserve
insertion order, so ordered association lists are a faithful model. Python
sorted is a stable sort; any stable sort for the same key yields the same
list, so it is modelled by a stable insertion sort.
-/

/-- Python strings are modelled as lists of characters. -/
abbrev Str : Type := List Char

/-- Whitespace as recognised by Python str.strip and str.split. -/
def isWs (c : Char) : Bool :=
  c = ' ' || c = '\t' || c = '\n' || c = '\r' || c.toNat = 11 || c.toNat = 12

/-- Python str.lower on the ASCII strings the code handles. -/
def lowerStr (s : Str) : Str := s.map Char.toLower

/-- Leading-whitespace removal, Python str.lstrip. -/
def lstrip (s : Str) : Str := s.dropWhile isWs

/-- Trailing-whitespace removal, Python str.rstrip. -/
def rstrip (s : Str) : Str := (s.reverse.dropWhile isWs).reverse

/-- Python str.strip. -/
def pyStrip (s : Str) : Str := rstrip (lstrip s)

/-- Python substring containment, the expression pat in s. -/
def containsSub (pat : Str) : Str → Bool
  | [] => pat.isEmpty
  | c :: rest => pat.isPrefixOf (c :: rest) || containsSub pat rest

/-- Python str.find for a nonempty pattern: index of the first occurrence. -/
def findSub (pat : Str) : Str → Option Nat
  | [] => if pat.isEmpty then some 0 else none
  | c :: rest =>
    if pat.isPrefixOf (c :: rest) then some 0
    else (findSub pat rest).map (fun n => n + 1)

/-- Python s.split(pat)[0] for a nonempty pattern: the prefix of s before
the first occurrence of pat, the whole of s when pat does not occur. -/
def takeUntilSub (pat : Str) : Str → Str
  | [] => []
  | c :: rest => if pat.isPrefixOf (c :: rest) then [] else c :: takeUntilSub pat rest

/-- Python s.split(sep) for a one-character separator. -/
def splitOnChar (sep : Char) : Str → List Str
  | [] => [[]]
  | c :: rest =>
    if c = sep then [] :: splitOnChar sep rest
    else
      match splitOnChar sep rest with
      | [] => [[c]]
      | h :: t => (c :: h) :: t

/-- Python s.split() with no separator: split on whitespace runs, dropping
empty pieces. -/
def splitWsAll : Str → List Str
  | [] => [[]]
  | c :: rest =>
    if isWs c then [] :: splitWsAll rest
    else
      match splitWsAll rest with
      | [] => [[c]]
      | h :: t => (c :: h) :: t

/-- Python query.split() used by the fusion code for keyword extraction. -/
def pySplitWs (s : Str) : List Str := (splitWsAll s).filter (fun w => !w.isEmpty)

/-- Python s.split(None, 1): skip leading whitespace, take the first
whitespace-free token, then the remainder with its leading whitespace
removed; an all-whitespace remainder is omitted, an all-whitespace input
gives the empty list. -/
def pySplitNone1 (s : Str) : List Str :=
  let s1 := s.dropWhile isWs
  if s1.isEmpty then []
  else
    let tok := s1.takeWhile (fun c => !(isWs c))
    let rest := (s1.dropWhile (fun c => !(isWs c))).dropWhile isWs
    if rest.isEmpty then [tok] else [tok, rest]

/-- Python ref_id.split(sep, 1) guarded by sep in ref_id: the parts before
and after the first occurrence of the separator character, when present. -/
def pySplitFirst (sep : Char) : Str → Option (Str × Str)
  | [] => none
  | c :: rest =>
    if c = sep then some ([], rest)
    else (pySplitFirst sep rest).map (fun p => (c :: p.1, p.2))

/-- One search-signal candidate: search_utils.py builds these dictionaries
with keys type, id, score and source. Keys the fusion code never reads
(such as embedding_type) are omitted. -/
structure Hit where
  type : Str
  id : Str
  score : ℚ
  source : Str
deriving DecidableEq

/-- The deduplication key of a hit, the (type, id) pair. -/
def keyH (h : Hit) : Str × Str := (h.type, h.id)

namespace RagCore

/-- One step of the seen dictionary in core/rag.py deduplicate_results:
the assignment seen[key] = result replaces in place when the key exists and
the new score is strictly higher, and appends for a new key. -/
def upsert : List Hit → Hit → List Hit
  | [], r => [r]
  | e :: rest, r =>
    if keyH e = keyH r then
      (if e.score < r.score then r :: rest else e :: rest)
    else e :: upsert rest r

/-- core/rag.py deduplicate_results, lines 23-34: keep, per (type, id) key,
the hit with the highest raw score, in dictionary insertion order. -/
def deduplicate_results (l : List Hit) : List Hit := l.foldl upsert []

/-- Python sorted(results, key=score, reverse=True): a stable descending
sort, modelled by a stable insertion sort on the same key. -/
def sortHitsDesc (l : List Hit) : List Hit :=
  l.insertionSort (fun a b => b.score ≤ a.score)

/-- core/rag.py combined_search, lines 37-121. The three retrieval calls
are external: semantic covers embed_text plus vector_search inside one try
block, keyword covers keyword_search, fuzzy covers fuzzy_search; a none
argument is a call that raised, which the surrounding except clause turns
into zero hits for that signal. The keyword call is only made when the
query has words longer than 2 characters. Returns the final hit list of
line 114, which lines 118-121 both return as raw_results and pass to
get_context_from_results to materialize the context and references. -/
def combined_search (semantic keyword fuzzy : Option (List Hit))
    (query : Str) (use_semantic use_keyword use_fuzzy : Bool)
    (top_k : Nat) : List Hit :=
  let semHits := if use_semantic then semantic.getD [] else []
  let keywords := (pySplitWs query).filter (fun w => 2 < w.length)
  let kwHits := if use_keyword && !keywords.isEmpty then keyword.getD [] else []
  let fzHits := if use_fuzzy then fuzzy.getD [] else []
  let all_results := semHits ++ kwHits ++ fzHits
  let unique_results := deduplicate_results all_results
  let sorted_results := sortHitsDesc unique_results
  sorted_results.take (top_k * 2)

end RagCore

namespace SearchUtils

/-- One entry of the combined_scores dictionary in search_utils.py
combined_search: accumulated weighted score and the contributing signal
names, keyed by (type, id). -/
structure Entry where
  type : Str
  id : Str
  score : ℚ
  sources : List Str
deriving DecidableEq

/-- The dictionary key of an entry, the (type, id) pair. -/
def keyE (e : Entry) : Str × Str := (e.type, e.id)

/-- add_score inside search_utils.py combined_search, lines 503-513: a
dictionary update, in place for an existing (type, id) key (score increased
by raw score times weight, source appended), appended at the end for a new
key (starting from score 0.0). -/
def addScore (w : ℚ) : List Entry → Hit → List Entry
  | [], r => [{ type := r.type, id := r.id, score := r.score * w, sources := [r.source] }]
  | e :: rest, r =>
    if keyE e = keyH r then
      { e with score := e.score + r.score * w, sources := e.sources ++ [r.source] } :: rest
    else e :: addScore w rest r

/-- The for-loop applying add_score to every hit of one signal list. -/
def addAll (acc : List Entry) (l : List Hit) (w : ℚ) : List Entry :=
  l.foldl (addScore w) acc

/-- The combined_scores dictionary after the three add_score loops of
lines 515-520 (vector, then keyword, then fuzzy results). -/
def combinedScores (vw kw fw : ℚ) (vecs kws fzs : List Hit) : List Entry :=
  addAll (addAll (addAll [] vecs vw) kws kw) fzs fw

/-- Python sorted(combined_scores.values(), key=score, reverse=True),
line 523: stable descending sort. -/
def sortEntriesDesc (l : List Entry) : List Entry :=
  l.insertionSort (fun a b => b.score ≤ a.score)

/-- The dictionary lookup combined_scores[(type, id)]. -/
def findEntry (acc : List Entry) (k : Str × Str) : Option Entry :=
  acc.find? (fun e => decide (keyE e = k))

/-- The seen-set deduplication after the forced insertions, lines 552-559:
first occurrence of each (type, id) key wins. -/
def dedupEntries (seen : List (Str × Str)) : List Entry → List Entry
  | [] => []
  | e :: rest =>
    if keyE e ∈ seen then dedupEntries seen rest
    else e :: dedupEntries (keyE e :: seen) rest

/-- One forced insertion of search_utils.py lines 537-550: when the
signal is not yet included and its result list is nonempty, append the
combined_scores entry of the signal's first hit. That key is always
present in the dictionary; the impossible missing-key case (a KeyError in
Python) is modelled as inserting nothing. -/
def forcedAppend (included : Bool) (base combined : List Entry) (l : List Hit) : List Entry :=
  if included then base
  else
    match l with
    | [] => base
    | h0 :: _ => base ++ (findEntry combined (keyH h0)).toList

/-- search_utils.py combined_search lines 500-564, after the weights are
fixed: combine the three signal lists with the given weights, sort by
combined score descending, run the ensure-one-keyword and ensure-one-fuzzy
insertions (both membership tests are made on the full sorted list, lines
533-534, before anything is trimmed), deduplicate by key, and trim to
top_k. -/
def combineAndRank (vw kw fw : ℚ) (vecs kws fzs : List Hit) (top_k : Nat) : List Entry :=
  let combined := combinedScores vw kw fw vecs kws fzs
  let sorted := sortEntriesDesc combined
  let kwIncluded := sorted.any (fun r => ("keyword".toList) ∈ r.sources)
  let fzIncluded := sorted.any (fun r => ("fuzzy".toList) ∈ r.sources)
  let sorted1 := forcedAppend kwIncluded sorted combined kws
  let sorted2 := forcedAppend fzIncluded sorted1 combined fzs
  (dedupEntries [] sorted2).take top_k

/-- search_utils.py combined_search, lines 401-564. The three signal
result lists (vector_search on the embedded query, keyword_search on the
extracted keywords, fuzzy_search on the raw query) are external inputs.
Lines 491-498: when the vector result list is empty or every vector score
is below 0.5, the weights are replaced by 0.3 / 0.4 / 0.3; otherwise the
caller-supplied weights (defaults 0.6 / 0.4 / 0.6) are used. -/
def combined_search (vecs kws fzs : List Hit)
    (vector_weight keyword_weight fuzzy_weight : ℚ) (top_k : Nat) : List Entry :=
  let weak_vectors := if vecs.isEmpty then true else vecs.all (fun v => decide (v.score < 0.5))
  if weak_vectors then combineAndRank 0.3 0.4 0.3 vecs kws fzs top_k
  else combineAndRank vector_weight keyword_weight fuzzy_weight vecs kws fzs top_k

/-- search_utils.py combined_search including its embedding step, lines
411-420: the embed_text call of line 415 is the one external call made
outside every try block of the function, and embed_text re-raises once
its retries are exhausted (gemni_api_utils.py lines 52-57), so its
failure, modelled as a none embedding, escapes combined_search to the
caller. The three search functions catch their own per-table errors
internally (every Supabase call of vector_search, keyword_search and
fuzzy_search sits in a try whose except prints and continues), so the
keyword and fuzzy result lists are total inputs and the vector results
are produced from the embedding on success. -/
def combined_search_with_embedding (embedding : Option (List ℚ))
    (vecsOf : List ℚ → List Hit) (kws fzs : List Hit)
    (vector_weight keyword_weight fuzzy_weight : ℚ) (top_k : Nat) :
    Option (List Entry) :=
  match embedding with
  | none => none
  | some v => some (combined_search (vecsOf v) kws fzs
      vector_weight keyword_weight fuzzy_weight top_k)

/-- Dictionary lookup of a key's accumulated combined score, 0 for an
absent key. -/
def lookupScore : List Entry → Str × Str → ℚ
  | [], _ => 0
  | e :: rest, k => if keyE e = k then e.score else lookupScore rest k

/-- The total weighted contribution of one signal list for a key: the sum
of raw score times weight over the list's hits with that key. -/
def sumContrib : List Hit → ℚ → Str × Str → ℚ
  | [], _, _ => 0
  | h :: rest, w, k => (if keyH h = k then h.score * w else 0) + sumContrib rest w k

/-- The claim's per-signal summand: the raw score of the signal's first
hit for a key times the signal weight, 0 when the signal has no hit for
the key. For a signal list with at most one hit per key this is the whole
contribution of that signal. -/
def signalContrib : List Hit → ℚ → Str × Str → ℚ
  | [], _, _ => 0
  | h :: rest, w, k => if keyH h = k then h.score * w else signalContrib rest w k

end SearchUtils

namespace Reference

/-- One row of a Supabase table, as the select star in
search/reference.py fetch_full_reference returns it: every column,
including user_id, as string-keyed fields. -/
structure DbRow where
  table : Str
  fields : List (Str × Str)
deriving DecidableEq

/-- A resolved reference dictionary as returned by fetch_full_reference:
string keys to string values. -/
abbrev RefRecord := List (Str × Str)

/-- Column access on a row. -/
def fieldOf (r : DbRow) (k : Str) : Option Str :=
  (r.fields.find? (fun p => decide (p.1 = k))).map (fun p => p.2)

/-- The table each recognised reference type maps to in the if chain of
fetch_full_reference. -/
def tableFor (refType : Str) : Option Str :=
  if refType = "email".toList then some ("emails".toList)
  else if refType = "schedule".toList then some ("schedules".toList)
  else if refType = "file".toList then some ("files".toList)
  else if refType = "attachment".toList then some ("attachments".toList)
  else none

/-- search/reference.py fetch_full_reference, lines 14-51: select star from
the table of the reference type, filtered by id only (the query carries no
user filter), returning the whole first matching row with a type key put in
front, or none when the type is unrecognised or no row matches. -/
def fetch_full_reference (db : List DbRow) (refType refId : Str) : Option RefRecord :=
  match tableFor refType with
  | none => none
  | some tbl =>
    match db.find? (fun r => decide (r.table = tbl) && decide (fieldOf r ("id".toList) = some refId)) with
    | some row => some ((("type".toList, refType)) :: row.fields)
    | none => none

/-- The literal REFERENCE_IDS: marker. -/
def refMarker : Str := "REFERENCE_IDS:".toList

/-- re.sub of the pattern REFERENCE_IDS:.*?(newline or end) with the empty
string, case-insensitively (line 72 of search/reference.py): every
leftmost, non-overlapping marker occurrence is deleted together with the
rest of its line, including the terminating newline when present. The skip
counter counts marker characters still being consumed; the flag records
that the deletion is consuming the rest of the line. -/
def removeRefLines : Nat → Bool → Str → Str
  | n + 1, inLine, _ :: rest => removeRefLines n inLine rest
  | 0, true, c :: rest =>
    if c = '\n' then removeRefLines 0 false rest else removeRefLines 0 true rest
  | 0, false, c :: rest =>
    if (lowerStr refMarker).isPrefixOf (lowerStr (c :: rest)) then
      removeRefLines (refMarker.length - 1) true rest
    else c :: removeRefLines 0 false rest
  | _, _, [] => []

/-- search/reference.py parse_reference_ids, lines 54-78. The search for
REFERENCE_IDS:\s*(.+?)(newline or end), case-insensitive, matches at the
first marker occurrence provided some non-newline character follows it
(when only newlines or nothing follow the first occurrence, nothing in the
string can match and the function returns the input unchanged); the
captured group, stripped, is the content of the first marker-following
line, the \s* having skipped any whitespace, newlines included. On a
match: the content is the input with every marker line deleted by re.sub
and then stripped, and the ids are the comma-split, stripped, nonempty
pieces of the captured line, or no ids at all for the literal token
none. -/
def parse_reference_ids (llm_output : Str) : Str × List Str :=
  match findSub (lowerStr refMarker) (lowerStr llm_output) with
  | none => (llm_output, [])
  | some i =>
    let after := llm_output.drop (i + refMarker.length)
    if after.all (fun c => c = '\n') then (llm_output, [])
    else
      let refLine := pyStrip ((after.dropWhile isWs).takeWhile (fun c => c ≠ '\n'))
      let content := pyStrip (removeRefLines 0 false llm_output)
      let ids :=
        if lowerStr refLine = "none".toList then []
        else ((splitOnChar ',' refLine).map pyStrip).filter (fun s => !s.isEmpty)
      (content, ids)

/-- search/reference.py fetch_references_by_ids, lines 81-127: for each id
in order, split at the first underscore into type and raw id, or, for an
id with no underscore, borrow the type of the first raw search result with
a matching id; fetch the full row; ids with no underscore and no matching
prior hit, and ids whose fetch finds nothing, are skipped without aborting
the rest. -/
def fetch_references_by_ids (db : List DbRow) : List Str → List Hit → List RefRecord
  | [], _ => []
  | refId :: rest, raw =>
    let tail := fetch_references_by_ids db rest raw
    match pySplitFirst '_' refId with
    | some (t, i) =>
      match fetch_full_reference db t i with
      | some r => r :: tail
      | none => tail
    | none =>
      match raw.find? (fun h => decide (h.id = refId)) with
      | some h =>
        match fetch_full_reference db h.type refId with
        | some r => r :: tail
        | none => tail
      | none => tail

end Reference

namespace React

/-- One chat turn. -/
structure Msg where
  role : Str
  content : Str
deriving DecidableEq

/-- The outcome of core/react.py parse_action: no recognisable line, a
Final answer, or a recognised tool invocation. -/
inductive ParsedAction where
  | thought
  | finish (answer : Str)
  | tool (name : Str) (query : Str)
deriving DecidableEq

/-- The three recognised tool names of the if chain in parse_action. -/
def knownTool (t : Str) : Bool :=
  decide (t = "vector_search".toList) || decide (t = "keyword_search".toList)
    || decide (t = "fuzzy_search".toList)

/-- The Final answer extraction of parse_action, lines 77-82: the answer is
everything after the first occurrence of the Final: literal in the whole
original text, stripped; when the literal is somehow absent from the
original text the stripped remainder of the matched line is kept. -/
def finalAnswer (text l : Str) : Str :=
  match findSub ("Final:".toList) text with
  | some i => pyStrip (text.drop (i + 6))
  | none => pyStrip (l.drop 6)

/-- One pass of the parse_action line loop: some outcome returns from the
function, none falls through to the next line (which is what an Action
line with no token or an unrecognised tool name does). -/
def parseActionLine (text line : Str) : Option ParsedAction :=
  let l := pyStrip line
  if ("Final:".toList).isPrefixOf l then
    some (ParsedAction.finish (finalAnswer text l))
  else if ("Action:".toList).isPrefixOf l then
    let actionText := pyStrip (l.drop 7)
    match pySplitNone1 actionText with
    | [] => none
    | tok :: restParts =>
      let toolName := lowerStr tok
      let query := match restParts with | [q] => q | _ => []
      if knownTool toolName then some (ParsedAction.tool toolName query) else none
  else none

/-- The line loop of parse_action: first line that resolves decides. -/
def parseActionLines (text : Str) : List Str → ParsedAction
  | [] => ParsedAction.thought
  | line :: rest =>
    match parseActionLine text line with
    | some a => a
    | none => parseActionLines text rest

/-- core/react.py parse_action, lines 68-101: iterate over the lines of
text.strip(), checking each stripped line first for a Final: then for an
Action: head; the first line that resolves decides the outcome, and a text
with no such line is an intermediate thought. -/
def parse_action (text : Str) : ParsedAction :=
  parseActionLines text (splitOnChar '\n' (pyStrip text))

/-- core/react.py react_agent lines 313-318, the hallucination guard: when
the lowercased model output contains the mixed-case literal Observation:
the output is cut before the first occurrence of that literal and
stripped; otherwise it is passed through. The containment test lowercases
the output yet looks for a literal containing an upper-case O. -/
def stripHallucinatedObservation (output : Str) : Str :=
  if containsSub ("Observation:".toList) (lowerStr output) then
    pyStrip (takeUntilSub ("Observation:".toList) output)
  else output

/-- The external world of one react_agent run: the chat completion call
(the stop sequence and model are fixed by the code and folded into this
function), the search tool execution (returning the rendered observation
and the raw hit list), and the database used for final reference
resolution. -/
structure ReactEnv where
  llm : List Msg → Str
  search : Str → Str → Str × List Hit
  db : List Reference.DbRow

/-- The payload react_agent returns (the verbose-only process and
llm_selected_ids keys are omitted; VERBOSE_OUTPUT defaults to false). -/
structure ReactResult where
  content : Str
  references : List Reference.RefRecord
deriving DecidableEq

/-- The fixed fallback answer of core/react.py line 363. -/
def fallbackAnswer : Str :=
  "Maximum search iterations reached. No sufficient information found in user\x27s personal data.".toList

/-- The while loop of react_agent, lines 296-360, by remaining iteration
budget: invoke the model, apply the hallucination guard, parse; a Final
answer is parsed for reference ids and resolved against the accumulated
raw results; a tool line runs the search, appends the assistant output and
an Observation turn, accumulates the raw results and continues; anything
else is appended as a thought and continues. Returned alongside the result
is the final value of the Python iteration counter (the number of model
calls made). -/
def react_go (env : ReactEnv) : Nat → List Msg → List Hit → ReactResult × Nat
  | 0, _, _ => ({ content := fallbackAnswer, references := [] }, 0)
  | n + 1, msgs, allResults =>
    let output := stripHallucinatedObservation (env.llm msgs)
    match parse_action output with
    | ParsedAction.finish ans =>
      let parsed := Reference.parse_reference_ids (pyStrip ans)
      ({ content := parsed.1,
         references := Reference.fetch_references_by_ids env.db parsed.2 allResults }, 1)
    | ParsedAction.tool t q =>
      let res := env.search t q
      let next := react_go env n
        (msgs ++ [{ role := "assistant".toList, content := output },
                  { role := "user".toList, content := "Observation: ".toList ++ res.1 }])
        (allResults ++ res.2)
      (next.1, next.2 + 1)
    | ParsedAction.thought =>
      let next := react_go env n
        (msgs ++ [{ role := "assistant".toList, content := output }]) allResults
      (next.1, next.2 + 1)

/-- The system turn prepended at line 288 (its literal text plays no role
in any property proved here, the model being universally quantified). -/
def systemMsg : Msg :=
  { role := "system".toList, content := "REACT_SYSTEM_PROMPT".toList }

/-- core/react.py react_agent, lines 278-373, with the iteration counter
exposed. -/
def react_agent (env : ReactEnv) (messages : List Msg) (max_iterations : Nat) :
    ReactResult × Nat :=
  react_go env max_iterations (systemMsg :: messages) []

end React

/-! Concrete inputs used by the claim theorems. -/

/-- An emails-table row owned by user-b, for claim C1. -/
def emailRow7 : Reference.DbRow :=
  { table := "emails".toList,
    fields := [("id".toList, "7".toList), ("user_id".toList, "user-b".toList),
               ("subject".toList, "quarterly budget".toList)] }

/-- A schedules-table row owned by user-b, for claim C2. -/
def scheduleRow9 : Reference.DbRow :=
  { table := "schedules".toList,
    fields := [("id".toList, "9".toList), ("user_id".toList, "user-b".toList),
               ("summary".toList, "standup".toList)] }

/-- A model output that fabricates an Observation, for claim C3. -/
def hallucinatedOutput : Str :=
  "Thought: I recall the data\nObservation: Result 1 [Email] budget due Friday".toList

/-- A strong vector hit, score 0.9, for claims C4 and C6. -/
def vecHit1 : Hit :=
  { type := "email".toList, id := "1".toList, score := 0.9, source := "vector".toList }

/-- A weak keyword hit on a different record, score 0.1, for claim C4. -/
def kwHit2 : Hit :=
  { type := "email".toList, id := "2".toList, score := 0.1, source := "keyword".toList }

/-- A fuzzy hit on a third record, for claim C6. -/
def fzHit3 : Hit :=
  { type := "file".toList, id := "3".toList, score := 0.8, source := "fuzzy".toList }

/-- A vector search producing no hits for any embedding, for claim C8. -/
def emptyVecSearch : List ℚ → List Hit := fun _ => []

/-- The final reference line of claim C10. -/
def refIdsLine : Str := "REFERENCE_IDS: email_123, file_456".toList

/-- A model output that already contains an earlier REFERENCE_IDS line
before ending in the claim C10 line. -/
def c10Bad : Str :=
  "REFERENCE_IDS: none\nUser has data.\nREFERENCE_IDS: email_123, file_456".toList

/-- An emails-table row with id 123, for the claim C10 witness. -/
def emailRow123 : Reference.DbRow :=
  { table := "emails".toList,
    fields := [("id".toList, "123".toList), ("user_id".toList, "user-a".toList),
               ("subject".toList, "budget".toList)] }

/-- A files-table row with id 456, for the claim C10 witness. -/
def fileRow456 : Reference.DbRow :=
  { table := "files".toList,
    fields := [("id".toList, "456".toList), ("user_id".toList, "user-a".toList),
               ("name".toList, "plan.pdf".toList)] }

/-! The remainder of the file states and proves the properties; a few
evaluation checks of the embedding come first. -/

example : React.parse_action ("Action: keyword_search budget proposal".toList)
    = React.ParsedAction.tool ("keyword_search".toList) ("budget proposal".toList) := by decide

example : React.parse_action ("Thought: I should search first".toList)
    = React.ParsedAction.thought := by decide

example : React.parse_action ("Thought: done\nFinal: User has one email.\nREFERENCE_IDS: none".toList)
    = React.ParsedAction.finish ("User has one email.\nREFERENCE_IDS: none".toList) := by decide

example : Reference.parse_reference_ids
    ("User has one email.\nREFERENCE_IDS: email_123, file_456".toList)
    = ("User has one email.".toList, ["email_123".toList, "file_456".toList]) := by
  decide

example : Reference.parse_reference_ids ("No data found.\nREFERENCE_IDS: none".toList)
    = ("No data found.".toList, []) := by decide

example : Reference.parse_reference_ids ("No marker here at all".toList)
    = ("No marker here at all".toList, []) := by decide

example : RagCore.deduplicate_results
    [{ type := "email".toList, id := "1".toList, score := 0.2, source := "vector".toList },
     { type := "email".toList, id := "1".toList, score := 0.7, source := "keyword".toList }]
    = [{ type := "email".toList, id := "1".toList, score := 0.7, source := "keyword".toList }] := by
  norm_num [RagCore.deduplicate_results, RagCore.upsert, keyH]

example : RagCore.sortHitsDesc
    [{ type := "a".toList, id := "1".toList, score := 0.1, source := "vector".toList },
     { type := "a".toList, id := "2".toList, score := 0.8, source := "vector".toList }]
    = [{ type := "a".toList, id := "2".toList, score := 0.8, source := "vector".toList },
       { type := "a".toList, id := "1".toList, score := 0.1, source := "vector".toList }] := by
  norm_num [RagCore.sortHitsDesc, List.insertionSort, List.orderedInsert]

/-- Char.ofNat evaluates to its argument on a valid scalar value. -/
theorem toNat_ofNat_valid {n : Nat} (h : n.isValidChar) : (Char.ofNat n).toNat = n := by
  rw [Char.ofNat, dif_pos h]
  rfl

/-- No character lowercases to an upper-case O. -/
theorem toLower_ne_upperO (c : Char) : Char.toLower c ≠ 'O' := by
  unfold Char.toLower
  simp only []
  by_cases h : c.toNat ≥ 65 ∧ c.toNat ≤ 90
  case pos =>
    rw [if_pos h]
    have hv : (c.toNat + 32).isValidChar := by
      simp only [Nat.isValidChar]
      left
      omega
    intro heq
    have h2 := congrArg Char.toNat heq
    rw [toNat_ofNat_valid hv] at h2
    have h3 : Char.toNat 'O' = 79 := by decide
    rw [h3] at h2
    omega
  case neg =>
    rw [if_neg h]
    intro heq
    rw [heq] at h
    exact h ⟨by decide, by decide⟩

/-- A lowercased string never contains the mixed-case Observation: literal. -/
theorem obs_not_in_lower (s : Str) :
    containsSub ("Observation:".toList) (lowerStr s) = false := by
  induction s with
  | nil => decide
  | cons c s ih =>
    show containsSub _ (Char.toLower c :: lowerStr s) = false
    rw [containsSub]
    rw [Bool.or_eq_false_iff]
    refine ⟨?_, ih⟩
    show List.isPrefixOf ('O' :: _) _ = false
    rw [List.isPrefixOf]
    rw [Bool.and_eq_false_iff]
    left
    exact beq_eq_false_iff_ne.mpr (Ne.symm (toLower_ne_upperO c))

/-- Claim C1, code bug: reference resolution never checks the user who
issued the query. fetch_full_reference and fetch_references_by_ids take no
user argument and filter by id alone (reference.py lines 26-47 and
97-127), so the id list email_7 emitted by the model during a query of
user-a resolves to the complete emails row owned by user-b: a record of a
different user appears in the resolved output, which the claim says can
never happen. -/
theorem c1_cross_user_record_resolved :
    Reference.fetch_references_by_ids [emailRow7] ["email_7".toList] []
      = [("type".toList, "email".toList) :: emailRow7.fields]
    ∧ Reference.fieldOf emailRow7 ("user_id".toList) = some ("user-b".toList)
    ∧ ("user-b".toList : Str) ≠ "user-a".toList := by decide

/-- Claim C2, code bug: fetch_full_reference returns the entire database
row with a type key in front (reference.py lines 30, 35, 40, 45) and
nothing in the resolution path removes the user_id column, so a resolved
reference still carries the owning-user identifier. -/
theorem c2_user_id_field_retained :
    Reference.fetch_references_by_ids [scheduleRow9] ["schedule_9".toList] []
      = [("type".toList, "schedule".toList) :: scheduleRow9.fields]
    ∧ ("user_id".toList, "user-b".toList)
        ∈ (("type".toList, "schedule".toList) :: scheduleRow9.fields) := by decide

/-- Claim C3, code bug: react.py line 314 tests whether the lowercased
output contains the mixed-case literal Observation:, which no lowercased
string can, so the hallucination guard never truncates anything: an output
that does contain Observation: is used unchanged, and in general the guard
is the identity on every output. -/
theorem c3_hallucination_guard_never_fires :
    containsSub ("Observation:".toList) hallucinatedOutput = true
    ∧ React.stripHallucinatedObservation hallucinatedOutput = hallucinatedOutput
    ∧ ∀ output : Str, React.stripHallucinatedObservation output = output := by
  refine ⟨by decide, by decide, ?_⟩
  intro output
  unfold React.stripHallucinatedObservation
  rw [obs_not_in_lower]
  simp

/-- Claim C4, code bug: the ensure-one-keyword membership test of
search_utils.py line 533 runs on the fully sorted, untrimmed list, where
every keyword-sourced hit still sits, so the forced insertion of lines
537-542 can never fire and the final trim of line 562 may drop every
keyword-sourced hit. With one strong vector hit, one keyword hit on a
different record and top_k = 1, keyword search returned a hit, the trim
would drop it, and the final result contains no keyword-sourced hit (the
fuzzy insertion of lines 545-550 is guarded by the same dead test). -/
theorem c4_diversity_guarantee_violated :
    SearchUtils.combined_search [vecHit1] [kwHit2] [] 0.6 0.4 0.6 1
      = [{ type := "email".toList, id := "1".toList, score := 0.54,
           sources := ["vector".toList] }]
    ∧ ∀ e ∈ SearchUtils.combined_search [vecHit1] [kwHit2] [] 0.6 0.4 0.6 1,
        ("keyword".toList) ∉ e.sources := by
  have h : SearchUtils.combined_search [vecHit1] [kwHit2] [] 0.6 0.4 0.6 1
      = [{ type := "email".toList, id := "1".toList, score := 0.54,
           sources := ["vector".toList] }] := by
    norm_num [SearchUtils.combined_search, SearchUtils.combineAndRank,
      SearchUtils.forcedAppend, SearchUtils.combinedScores, SearchUtils.addAll,
      SearchUtils.addScore, SearchUtils.sortEntriesDesc, List.insertionSort,
      List.orderedInsert, SearchUtils.dedupEntries, SearchUtils.findEntry, keyH,
      SearchUtils.keyE, vecHit1, kwHit2, List.any]
  refine ⟨h, ?_⟩
  rw [h]
  decide

/-- Claim C6, counterexample: core/rag.py line 114 trims the sorted unique
results to top_k * 2, not top_k, and passes exactly that list to context
and reference materialization, so with two surviving hits and top_k = 1
the returned fused hit list has length 2 above the claimed bound 1. -/
theorem c6_rag_trim_exceeds_top_k :
    (RagCore.combined_search (some [vecHit1]) (some []) (some [fzHit3])
        ("budget deadline".toList) true true true 1).length = 2 := by
  norm_num [RagCore.combined_search, RagCore.deduplicate_results, RagCore.upsert,
    RagCore.sortHitsDesc, List.insertionSort, List.orderedInsert, keyH, pySplitWs,
    splitWsAll, isWs, vecHit1, fzHit3]

/-- Claim C6 as amended: core/rag.py combined_search returns at most
top_k * 2 hits (the code deliberately allows more results for better
context), and the search_utils.py fusion trims to top_k as the claim
states. -/
theorem c6_trim_bounds (semantic keyword fuzzy : Option (List Hit)) (query : Str)
    (uS uK uF : Bool) (top_k : Nat) (vecs kws fzs : List Hit) (vw kw fw : ℚ) :
    (RagCore.combined_search semantic keyword fuzzy query uS uK uF top_k).length ≤ top_k * 2
    ∧ (SearchUtils.combined_search vecs kws fzs vw kw fw top_k).length ≤ top_k := by
  have hcr : ∀ (a b c : ℚ) (v k f : List Hit) (n : Nat),
      (SearchUtils.combineAndRank a b c v k f n).length ≤ n := by
    intro a b c v k f n
    simp only [SearchUtils.combineAndRank]
    exact List.length_take_le _ _
  constructor
  · simp only [RagCore.combined_search]
    exact List.length_take_le _ _
  · simp only [SearchUtils.combined_search]
    split <;> (try split) <;> exact hcr _ _ _ _ _ _ _

/-- Claim C6, witness for the amended bound at concrete inputs. -/
theorem c6_trim_bounds_witness :
    (RagCore.combined_search (some [vecHit1]) (some []) (some [fzHit3])
        ("budget deadline".toList) true true true 1).length ≤ 1 * 2 :=
  (c6_trim_bounds (some [vecHit1]) (some []) (some [fzHit3])
    ("budget deadline".toList) true true true 1 [] [] [] 0.6 0.4 0.6).1

/-- Claim C8, counterexample: in search_utils.py combined_search the
embedding call of the semantic signal (line 415) runs outside every try
block, and embed_text re-raises once its retries are exhausted, so the
failure propagates out of combined_search instead of the semantic signal
degrading to zero hits: with a keyword hit available, the failed run
surfaces the error and returns no result list at all, where the claim
promises a normal return carrying the other signals' hits (the second
conjunct shows the run the claim expects, which only a successful
embedding produces). -/
theorem c8_embedding_failure_surfaced :
    SearchUtils.combined_search_with_embedding none emptyVecSearch [kwHit2] []
        0.6 0.4 0.6 5 = none
    ∧ SearchUtils.combined_search_with_embedding (some []) emptyVecSearch [kwHit2] []
        0.6 0.4 0.6 5
      = some (SearchUtils.combined_search [] [kwHit2] [] 0.6 0.4 0.6 5) :=
  ⟨rfl, rfl⟩

/-- Claim C8 as amended: in core/rag.py combined_search each retrieval
signal call, the semantic branch's embedding step included, sits in its
own try block whose except clause only logs, so a raising call behaves
exactly as a signal returning zero hits, the other signal lists enter the
fusion untouched, and the function returns normally, the failure never
reaching the caller. In search_utils.py combined_search the per-table
search errors are likewise caught inside vector_search, keyword_search
and fuzzy_search (the signal result lists are total inputs here), and a
run whose embedding succeeds returns the fused list normally; but a
failure of the embedding step itself (line 415, outside any try block)
propagates to the caller. -/
theorem c8_signal_failure_degrades (semantic keyword fuzzy : Option (List Hit))
    (query : Str) (uS uK uF : Bool) (top_k : Nat)
    (vecsOf : List ℚ → List Hit) (kws fzs : List Hit)
    (vw kw fw : ℚ) (emb : List ℚ) :
    RagCore.combined_search none keyword fuzzy query uS uK uF top_k
      = RagCore.combined_search (some []) keyword fuzzy query uS uK uF top_k
    ∧ RagCore.combined_search semantic none fuzzy query uS uK uF top_k
      = RagCore.combined_search semantic (some []) fuzzy query uS uK uF top_k
    ∧ RagCore.combined_search semantic keyword none query uS uK uF top_k
      = RagCore.combined_search semantic keyword (some []) query uS uK uF top_k
    ∧ SearchUtils.combined_search_with_embedding (some emb) vecsOf kws fzs vw kw fw top_k
      = some (SearchUtils.combined_search (vecsOf emb) kws fzs vw kw fw top_k)
    ∧ SearchUtils.combined_search_with_embedding none vecsOf kws fzs vw kw fw top_k
      = none :=
  ⟨rfl, rfl, rfl, rfl, rfl⟩

/-- Claim C8, witness at concrete inputs: a raising semantic signal in
core/rag.py combined_search leaves the keyword hits as the result. -/
theorem c8_signal_failure_degrades_witness :
    RagCore.combined_search none (some [kwHit2]) (some []) ("budget".toList) true true true 5
      = RagCore.combined_search (some []) (some [kwHit2]) (some []) ("budget".toList)
          true true true 5 :=
  (c8_signal_failure_degrades (some []) (some [kwHit2]) (some [])
    ("budget".toList) true true true 5 emptyVecSearch [kwHit2] [] 0.6 0.4 0.6 []).1

theorem mem_upsert {s : List Hit} {r a : Hit} (h : a ∈ RagCore.upsert s r) :
    a ∈ s ∨ a = r := by
  induction s with
  | nil =>
    simp [RagCore.upsert] at h
    exact Or.inr h
  | cons e rest ih =>
    rw [RagCore.upsert] at h
    by_cases hk : keyH e = keyH r
    · rw [if_pos hk] at h
      by_cases hs : e.score < r.score
      · rw [if_pos hs] at h
        rcases List.mem_cons.mp h with h1 | h1
        · exact Or.inr h1
        · exact Or.inl (List.mem_cons_of_mem _ h1)
      · rw [if_neg hs] at h
        rcases List.mem_cons.mp h with h1 | h1
        · exact Or.inl (h1 ▸ List.mem_cons_self _ _)
        · exact Or.inl (List.mem_cons_of_mem _ h1)
    · rw [if_neg hk] at h
      rcases List.mem_cons.mp h with h1 | h1
      · exact Or.inl (h1 ▸ List.mem_cons_self _ _)
      · rcases ih h1 with h2 | h2
        · exact Or.inl (List.mem_cons_of_mem _ h2)
        · exact Or.inr h2

theorem keys_upsert (s : List Hit) (r : Hit) :
    (RagCore.upsert s r).map keyH
      = if keyH r ∈ s.map keyH then s.map keyH else s.map keyH ++ [keyH r] := by
  induction s with
  | nil => simp [RagCore.upsert]
  | cons e rest ih =>
    rw [RagCore.upsert]
    by_cases hk : keyH e = keyH r
    · rw [if_pos hk]
      have hmem : keyH r ∈ (e :: rest).map keyH := by
        simp [hk.symm]
      rw [if_pos hmem]
      by_cases hs : e.score < r.score
      · rw [if_pos hs]
        simp [hk]
      · rw [if_neg hs]
    · rw [if_neg hk]
      by_cases hmem : keyH r ∈ rest.map keyH
      · have hmem2 : keyH r ∈ (e :: rest).map keyH := by
          simp [hmem]
        rw [if_pos hmem2]
        simp only [List.map_cons]
        rw [ih, if_pos hmem]
      · have hmem2 : keyH r ∉ (e :: rest).map keyH := by
          simp only [List.map_cons, List.mem_cons]
          push_neg
          exact ⟨fun hh => hk hh.symm, hmem⟩
        rw [if_neg hmem2]
        simp only [List.map_cons]
        rw [ih, if_neg hmem]
        simp

theorem pairwise_upsert {s : List Hit} {r : Hit}
    (h : s.Pairwise (fun a b => keyH a ≠ keyH b)) :
    (RagCore.upsert s r).Pairwise (fun a b => keyH a ≠ keyH b) := by
  induction s with
  | nil => simp [RagCore.upsert]
  | cons e rest ih =>
    rw [List.pairwise_cons] at h
    rw [RagCore.upsert]
    by_cases hk : keyH e = keyH r
    · rw [if_pos hk]
      by_cases hs : e.score < r.score
      · rw [if_pos hs]
        rw [List.pairwise_cons]
        exact ⟨fun b hb => hk ▸ h.1 b hb, h.2⟩
      · rw [if_neg hs]
        rw [List.pairwise_cons]
        exact h
    · rw [if_neg hk]
      rw [List.pairwise_cons]
      refine ⟨?_, ih h.2⟩
      intro b hb
      rcases mem_upsert hb with h1 | h1
      · exact h.1 b h1
      · rw [h1]
        exact hk

theorem upsert_dom {s p : List Hit} {r : Hit}
    (hpw : s.Pairwise (fun a b => keyH a ≠ keyH b))
    (hdom : ∀ e ∈ s, ∀ h ∈ p, keyH h = keyH e → h.score ≤ e.score)
    (hkey : ∀ h ∈ p, keyH h = keyH r → ∃ e, e ∈ s ∧ keyH e = keyH r ∧ h.score ≤ e.score) :
    ∀ e2 ∈ RagCore.upsert s r, ∀ h ∈ p ++ [r], keyH h = keyH e2 → h.score ≤ e2.score := by
  induction s with
  | nil =>
    intro e2 he2 h hh hkh
    simp [RagCore.upsert] at he2
    subst he2
    rcases List.mem_append.mp hh with h1 | h1
    · rcases hkey h h1 hkh with ⟨e, he, _⟩
      exact absurd he (List.not_mem_nil e)
    · simp at h1
      subst h1
      exact le_refl _
  | cons e rest ih =>
    rw [List.pairwise_cons] at hpw
    intro e2 he2 h hh hkh
    rw [RagCore.upsert] at he2
    by_cases hk : keyH e = keyH r
    · rw [if_pos hk] at he2
      by_cases hs : e.score < r.score
      · rw [if_pos hs] at he2
        rcases List.mem_cons.mp he2 with h1 | h1
        · subst h1
          rcases List.mem_append.mp hh with h2 | h2
          · have := hdom e (List.mem_cons_self _ _) h h2 (by rw [hkh, ← hk])
            exact le_trans this (le_of_lt hs)
          · simp at h2
            subst h2
            exact le_refl _
        · rcases List.mem_append.mp hh with h2 | h2
          · exact hdom e2 (List.mem_cons_of_mem _ h1) h h2 hkh
          · simp at h2
            subst h2
            exact absurd (hkh ▸ hk.symm) (Ne.symm (hpw.1 e2 h1))
      · rw [if_neg hs] at he2
        rcases List.mem_cons.mp he2 with h1 | h1
        · subst h1
          rcases List.mem_append.mp hh with h2 | h2
          · exact hdom e2 (List.mem_cons_self _ _) h h2 hkh
          · simp at h2
            subst h2
            rw [not_lt] at hs
            exact hs
        · rcases List.mem_append.mp hh with h2 | h2
          · exact hdom e2 (List.mem_cons_of_mem _ h1) h h2 hkh
          · simp at h2
            subst h2
            exact absurd (hkh ▸ hk.symm) (Ne.symm (hpw.1 e2 h1))
    · rw [if_neg hk] at he2
      rcases List.mem_cons.mp he2 with h1 | h1
      · subst h1
        rcases List.mem_append.mp hh with h2 | h2
        · exact hdom e2 (List.mem_cons_self _ _) h h2 hkh
        · simp at h2
          subst h2
          exact absurd hkh.symm hk
      · refine ih hpw.2 ?_ ?_ e2 h1 h hh hkh
        · intro e3 he3 h3 hh3 hk3
          exact hdom e3 (List.mem_cons_of_mem _ he3) h3 hh3 hk3
        · intro h3 hh3 hk3
          rcases hkey h3 hh3 hk3 with ⟨e4, he4, hke4, hs4⟩
          rcases List.mem_cons.mp he4 with h5 | h5
          · exact absurd (h5 ▸ hke4) hk
          · exact ⟨e4, h5, hke4, hs4⟩

theorem foldl_upsert_invariant :
    ∀ (l p s : List Hit),
      s.Pairwise (fun a b => keyH a ≠ keyH b) →
      (∀ e ∈ s, e ∈ p) →
      (∀ e ∈ s, ∀ h ∈ p, keyH h = keyH e → h.score ≤ e.score) →
      (∀ k, k ∈ p.map keyH ↔ k ∈ s.map keyH) →
      (l.foldl RagCore.upsert s).Pairwise (fun a b => keyH a ≠ keyH b)
      ∧ (∀ e ∈ l.foldl RagCore.upsert s, e ∈ p ++ l)
      ∧ (∀ e ∈ l.foldl RagCore.upsert s, ∀ h ∈ p ++ l, keyH h = keyH e → h.score ≤ e.score)
      ∧ (∀ k, k ∈ (p ++ l).map keyH ↔ k ∈ (l.foldl RagCore.upsert s).map keyH) := by
  intro l
  induction l with
  | nil =>
    intro p s hpw hmem hdom hiff
    simp only [List.foldl_nil, List.append_nil]
    exact ⟨hpw, hmem, hdom, hiff⟩
  | cons r l ih =>
    intro p s hpw hmem hdom hiff
    have hkey : ∀ h ∈ p, keyH h = keyH r → ∃ e, e ∈ s ∧ keyH e = keyH r ∧ h.score ≤ e.score := by
      intro h hh hkh
      have hks : keyH h ∈ s.map keyH := (hiff (keyH h)).mp (List.mem_map_of_mem keyH hh)
      rcases List.mem_map.mp hks with ⟨e, he, hke⟩
      exact ⟨e, he, by rw [hke, hkh], hdom e he h hh hke.symm⟩
    have step := ih (p ++ [r]) (RagCore.upsert s r)
      (pairwise_upsert hpw)
      (by
        intro e he
        rcases mem_upsert he with h1 | h1
        · exact List.mem_append_left _ (hmem e h1)
        · rw [h1]
          exact List.mem_append_right _ (List.mem_cons_self _ _))
      (upsert_dom hpw hdom hkey)
      (by
        intro k
        rw [List.map_append, keys_upsert]
        by_cases hm : keyH r ∈ s.map keyH
        · rw [if_pos hm]
          simp only [List.map_cons, List.map_nil, List.mem_append, List.mem_cons,
            List.not_mem_nil, or_false]
          constructor
          · rintro (h1 | h1)
            · exact (hiff k).mp h1
            · rw [h1]
              exact hm
          · intro h1
            exact Or.inl ((hiff k).mpr h1)
        · rw [if_neg hm]
          simp only [List.map_cons, List.map_nil, List.mem_append, List.mem_cons,
            List.not_mem_nil, or_false]
          constructor
          · rintro (h1 | h1)
            · exact Or.inl ((hiff k).mp h1)
            · exact Or.inr h1
          · rintro (h1 | h1)
            · exact Or.inl ((hiff k).mpr h1)
            · exact Or.inr h1)
    simpa [List.foldl_cons, List.append_assoc] using step

theorem upsert_append_of_not_mem {s : List Hit} {r : Hit}
    (h : keyH r ∉ s.map keyH) : RagCore.upsert s r = s ++ [r] := by
  induction s with
  | nil => simp [RagCore.upsert]
  | cons e rest ih =>
    simp only [List.map_cons, List.mem_cons] at h
    push_neg at h
    rw [RagCore.upsert, if_neg (fun hx => h.1 hx.symm)]
    rw [ih h.2]
    simp

theorem foldl_upsert_of_pairwise :
    ∀ (l s : List Hit), (s ++ l).Pairwise (fun a b => keyH a ≠ keyH b) →
      l.foldl RagCore.upsert s = s ++ l := by
  intro l
  induction l with
  | nil =>
    intro s _
    simp
  | cons r l ih =>
    intro s hpw
    have hnotmem : keyH r ∉ s.map keyH := by
      rw [List.pairwise_append] at hpw
      intro hm
      rcases List.mem_map.mp hm with ⟨e, he, hke⟩
      exact (hpw.2.2 e he r (List.mem_cons_self _ _)) hke
    rw [List.foldl_cons, upsert_append_of_not_mem hnotmem]
    rw [ih (s ++ [r]) (by simpa using hpw)]
    simp

/-- Claim C5: core/rag.py deduplicate_results keeps exactly one hit per
(type, id) pair (its output keys are pairwise distinct and are exactly the
input keys), the kept hit is an input hit whose raw score is maximal among
all input hits sharing its pair, and the function is idempotent. -/
theorem c5_dedup_keeps_max_per_key (l : List Hit) :
    ((RagCore.deduplicate_results l).Pairwise (fun a b => keyH a ≠ keyH b)
      ∧ ∀ k, k ∈ l.map keyH ↔ k ∈ (RagCore.deduplicate_results l).map keyH)
    ∧ (∀ e ∈ RagCore.deduplicate_results l,
        e ∈ l ∧ ∀ h ∈ l, keyH h = keyH e → h.score ≤ e.score)
    ∧ RagCore.deduplicate_results (RagCore.deduplicate_results l)
        = RagCore.deduplicate_results l := by
  have inv := foldl_upsert_invariant l [] []
    (List.Pairwise.nil) (by simp) (by simp) (by simp)
  rw [List.nil_append] at inv
  refine ⟨⟨inv.1, inv.2.2.2⟩, ?_, ?_⟩
  · intro e he
    exact ⟨inv.2.1 e he, fun h hh hk => inv.2.2.1 e he h hh hk⟩
  · show (RagCore.deduplicate_results l).foldl RagCore.upsert [] = _
    rw [foldl_upsert_of_pairwise (RagCore.deduplicate_results l) [] (by simpa using inv.1)]
    simp

/-- Claim C5, witness: the specification applied to a concrete list,
idempotence conjunct. -/
theorem c5_dedup_keeps_max_per_key_witness :
    RagCore.deduplicate_results (RagCore.deduplicate_results [vecHit1, kwHit2, vecHit1])
      = RagCore.deduplicate_results [vecHit1, kwHit2, vecHit1] :=
  (c5_dedup_keeps_max_per_key [vecHit1, kwHit2, vecHit1]).2.2

/-- Claim C9: for a model none of whose outputs parses to a Final answer
(after the guard), the ReAct loop runs its entire iteration budget, the
iteration counter ends exactly at max_iterations (so it never exceeds the
budget), and the returned payload is the fixed fallback answer with an
empty reference list. -/
theorem c9_iteration_cap (env : React.ReactEnv) (messages : List React.Msg)
    (max_iterations : Nat)
    (h : ∀ m : List React.Msg, ∀ a : Str,
      React.parse_action (React.stripHallucinatedObservation (env.llm m))
        ≠ React.ParsedAction.finish a) :
    React.react_agent env messages max_iterations
      = ({ content := React.fallbackAnswer, references := [] }, max_iterations) := by
  have go : ∀ (n : Nat) (msgs : List React.Msg) (acc : List Hit),
      React.react_go env n msgs acc
        = ({ content := React.fallbackAnswer, references := [] }, n) := by
    intro n
    induction n with
    | zero =>
      intro msgs acc
      rfl
    | succ n ih =>
      intro msgs acc
      cases hpa : React.parse_action (React.stripHallucinatedObservation (env.llm msgs)) with
      | finish a => exact absurd hpa (h msgs a)
      | tool t q => simp only [React.react_go, hpa, ih]
      | thought => simp only [React.react_go, hpa, ih]
  exact go max_iterations _ []

/-- A model that only ever produces an intermediate thought. -/
def c9Env : React.ReactEnv :=
  { llm := fun _ => "Thought: still thinking".toList,
    search := fun _ _ => ("No results found.".toList, []),
    db := [] }

/-- Claim C9, witness: a thought-only model with budget 2 terminates after
exactly 2 iterations with the fallback answer and no references. -/
theorem c9_iteration_cap_witness :
    React.react_agent c9Env [] 2
      = ({ content := React.fallbackAnswer, references := [] }, 2) :=
  c9_iteration_cap c9Env [] 2 (by
    intro m a hq
    have hl : c9Env.llm m = "Thought: still thinking".toList := rfl
    rw [hl] at hq
    have hv : React.parse_action
        (React.stripHallucinatedObservation ("Thought: still thinking".toList))
        = React.ParsedAction.thought := by decide
    rw [hv] at hq
    exact React.ParsedAction.noConfusion hq)

theorem lookupScore_addScore (w : ℚ) (acc : List SearchUtils.Entry) (r : Hit) (k : Str × Str) :
    SearchUtils.lookupScore (SearchUtils.addScore w acc r) k
      = SearchUtils.lookupScore acc k + (if keyH r = k then r.score * w else 0) := by
  induction acc with
  | nil =>
    by_cases hk : keyH r = k
    · have hke : SearchUtils.keyE
          { type := r.type, id := r.id, score := r.score * w, sources := [r.source] } = k := hk
      simp [SearchUtils.addScore, SearchUtils.lookupScore, hke, hk]
    · have hke : ¬ SearchUtils.keyE
          { type := r.type, id := r.id, score := r.score * w, sources := [r.source] } = k := hk
      simp [SearchUtils.addScore, SearchUtils.lookupScore, hke, hk]
  | cons e rest ih =>
    rw [SearchUtils.addScore]
    by_cases hke : SearchUtils.keyE e = keyH r
    · rw [if_pos hke]
      by_cases hk : SearchUtils.keyE e = k
      · have h1 : SearchUtils.keyE
            { e with score := e.score + r.score * w, sources := e.sources ++ [r.source] } = k := hk
        have h2 : keyH r = k := by rw [← hke]; exact hk
        simp [SearchUtils.lookupScore, h1, hk, h2]
      · have h1 : ¬ SearchUtils.keyE
            { e with score := e.score + r.score * w, sources := e.sources ++ [r.source] } = k := hk
        have h2 : ¬ keyH r = k := by rw [← hke]; exact hk
        simp [SearchUtils.lookupScore, h1, hk, h2]
    · rw [if_neg hke]
      by_cases hk : SearchUtils.keyE e = k
      · have h2 : ¬ keyH r = k := by
          intro hx
          exact hke (by rw [hk, hx])
        simp [SearchUtils.lookupScore, hk, h2]
      · simp only [SearchUtils.lookupScore, if_neg hk]
        exact ih

theorem lookupScore_addAll (l : List Hit) (w : ℚ) :
    ∀ (acc : List SearchUtils.Entry) (k : Str × Str),
    SearchUtils.lookupScore (SearchUtils.addAll acc l w) k
      = SearchUtils.lookupScore acc k + SearchUtils.sumContrib l w k := by
  induction l with
  | nil =>
    intro acc k
    simp [SearchUtils.addAll, SearchUtils.sumContrib]
  | cons r l ih =>
    intro acc k
    show SearchUtils.lookupScore (SearchUtils.addAll (SearchUtils.addScore w acc r) l w) k = _
    rw [ih (SearchUtils.addScore w acc r) k, lookupScore_addScore]
    rw [SearchUtils.sumContrib]
    ring

theorem keyE_mem_addScore {w : ℚ} {acc : List SearchUtils.Entry} {r : Hit} :
    ∀ b ∈ SearchUtils.addScore w acc r,
      (∃ a ∈ acc, SearchUtils.keyE b = SearchUtils.keyE a) ∨ SearchUtils.keyE b = keyH r := by
  induction acc with
  | nil =>
    intro b hb
    simp [SearchUtils.addScore] at hb
    subst hb
    exact Or.inr rfl
  | cons e rest ih =>
    intro b hb
    rw [SearchUtils.addScore] at hb
    by_cases hke : SearchUtils.keyE e = keyH r
    · rw [if_pos hke] at hb
      rcases List.mem_cons.mp hb with h1 | h1
      · subst h1
        exact Or.inl ⟨e, List.mem_cons_self _ _, rfl⟩
      · exact Or.inl ⟨b, List.mem_cons_of_mem _ h1, rfl⟩
    · rw [if_neg hke] at hb
      rcases List.mem_cons.mp hb with h1 | h1
      · subst h1
        exact Or.inl ⟨b, List.mem_cons_self _ _, rfl⟩
      · rcases ih b h1 with ⟨a, ha, hka⟩ | h2
        · exact Or.inl ⟨a, List.mem_cons_of_mem _ ha, hka⟩
        · exact Or.inr h2

theorem pairwise_addScore {w : ℚ} {acc : List SearchUtils.Entry} {r : Hit}
    (h : acc.Pairwise (fun a b => SearchUtils.keyE a ≠ SearchUtils.keyE b)) :
    (SearchUtils.addScore w acc r).Pairwise
      (fun a b => SearchUtils.keyE a ≠ SearchUtils.keyE b) := by
  induction acc with
  | nil => simp [SearchUtils.addScore]
  | cons e rest ih =>
    rw [List.pairwise_cons] at h
    rw [SearchUtils.addScore]
    by_cases hke : SearchUtils.keyE e = keyH r
    · rw [if_pos hke]
      rw [List.pairwise_cons]
      exact ⟨fun b hb => h.1 b hb, h.2⟩
    · rw [if_neg hke]
      rw [List.pairwise_cons]
      refine ⟨?_, ih h.2⟩
      intro b hb
      rcases keyE_mem_addScore b hb with ⟨a, ha, hka⟩ | h2
      · rw [hka]
        exact h.1 a ha
      · rw [h2]
        exact hke

theorem pairwise_addAll (l : List Hit) (w : ℚ) :
    ∀ acc : List SearchUtils.Entry,
      acc.Pairwise (fun a b => SearchUtils.keyE a ≠ SearchUtils.keyE b) →
      (SearchUtils.addAll acc l w).Pairwise
        (fun a b => SearchUtils.keyE a ≠ SearchUtils.keyE b) := by
  induction l with
  | nil =>
    intro acc h
    exact h
  | cons r l ih =>
    intro acc h
    exact ih (SearchUtils.addScore w acc r) (pairwise_addScore h)

theorem pairwise_combinedScores (vw kw fw : ℚ) (vecs kws fzs : List Hit) :
    (SearchUtils.combinedScores vw kw fw vecs kws fzs).Pairwise
      (fun a b => SearchUtils.keyE a ≠ SearchUtils.keyE b) :=
  pairwise_addAll fzs fw _ (pairwise_addAll kws kw _ (pairwise_addAll vecs vw _ List.Pairwise.nil))

theorem lookupScore_of_mem {acc : List SearchUtils.Entry}
    (hpw : acc.Pairwise (fun a b => SearchUtils.keyE a ≠ SearchUtils.keyE b))
    {e : SearchUtils.Entry} (he : e ∈ acc) :
    SearchUtils.lookupScore acc (SearchUtils.keyE e) = e.score := by
  induction acc with
  | nil => exact absurd he (List.not_mem_nil e)
  | cons a rest ih =>
    rw [List.pairwise_cons] at hpw
    rcases List.mem_cons.mp he with h1 | h1
    · subst h1
      simp [SearchUtils.lookupScore]
    · rw [SearchUtils.lookupScore, if_neg (fun hx => (hpw.1 e h1) hx)]
      exact ih hpw.2 h1

theorem mem_dedupEntries {l : List SearchUtils.Entry} :
    ∀ {seen : List (Str × Str)} {e : SearchUtils.Entry},
      e ∈ SearchUtils.dedupEntries seen l → e ∈ l := by
  induction l with
  | nil =>
    intro seen e he
    exact absurd he (List.not_mem_nil e)
  | cons a rest ih =>
    intro seen e he
    rw [SearchUtils.dedupEntries] at he
    by_cases hm : SearchUtils.keyE a ∈ seen
    · rw [if_pos hm] at he
      exact List.mem_cons_of_mem _ (ih he)
    · rw [if_neg hm] at he
      rcases List.mem_cons.mp he with h1 | h1
      · exact h1 ▸ List.mem_cons_self _ _
      · exact List.mem_cons_of_mem _ (ih h1)

theorem mem_sortEntriesDesc {l : List SearchUtils.Entry} {e : SearchUtils.Entry}
    (h : e ∈ SearchUtils.sortEntriesDesc l) : e ∈ l :=
  (List.perm_insertionSort _ l).subset h

theorem mem_findEntry_toList {acc : List SearchUtils.Entry} {k : Str × Str}
    {e : SearchUtils.Entry} (h : e ∈ (SearchUtils.findEntry acc k).toList) : e ∈ acc := by
  cases hf : SearchUtils.findEntry acc k with
  | none =>
    rw [hf] at h
    exact absurd h (List.not_mem_nil e)
  | some a =>
    rw [hf] at h
    simp at h
    subst h
    exact List.mem_of_find?_eq_some hf

theorem mem_forcedAppend {included : Bool} {base combined : List SearchUtils.Entry}
    {l : List Hit} {e : SearchUtils.Entry}
    (h : e ∈ SearchUtils.forcedAppend included base combined l) :
    e ∈ base ∨ e ∈ combined := by
  rw [SearchUtils.forcedAppend.eq_def] at h
  by_cases hinc : included = true
  · rw [if_pos hinc] at h
    exact Or.inl h
  · rw [if_neg hinc] at h
    cases l with
    | nil => exact Or.inl h
    | cons h0 t =>
      rcases List.mem_append.mp h with h1 | h1
      · exact Or.inl h1
      · exact Or.inr (mem_findEntry_toList h1)

theorem mem_combineAndRank {vw kw fw : ℚ} {vecs kws fzs : List Hit} {top_k : Nat}
    {e : SearchUtils.Entry} (he : e ∈ SearchUtils.combineAndRank vw kw fw vecs kws fzs top_k) :
    e ∈ SearchUtils.combinedScores vw kw fw vecs kws fzs := by
  simp only [SearchUtils.combineAndRank] at he
  have h1 := mem_dedupEntries (List.mem_of_mem_take he)
  rcases mem_forcedAppend h1 with h2 | h2
  · rcases mem_forcedAppend h2 with h3 | h3
    · exact mem_sortEntriesDesc h3
    · exact h3
  · exact h2

theorem sumContrib_eq_zero {l : List Hit} {k : Str × Str} (h : k ∉ l.map keyH) (w : ℚ) :
    SearchUtils.sumContrib l w k = 0 := by
  induction l with
  | nil => rfl
  | cons b t ih =>
    simp only [List.map_cons, List.mem_cons, not_or] at h
    rw [SearchUtils.sumContrib, if_neg (fun hx => h.1 hx.symm)]
    rw [ih h.2]
    ring

theorem sumContrib_eq_signalContrib {l : List Hit} (hnd : (l.map keyH).Nodup)
    (w : ℚ) (k : Str × Str) :
    SearchUtils.sumContrib l w k = SearchUtils.signalContrib l w k := by
  induction l with
  | nil => rfl
  | cons r l ih =>
    simp only [List.map_cons, List.nodup_cons] at hnd
    rw [SearchUtils.sumContrib, SearchUtils.signalContrib]
    by_cases hk : keyH r = k
    · rw [if_pos hk, if_pos hk]
      rw [sumContrib_eq_zero (hk ▸ hnd.1) w]
      ring
    · rw [if_neg hk, if_neg hk]
      rw [ih hnd.2]
      ring

/-- Claim C7: when every semantic-signal score is below the 0.5 confidence
threshold (vacuously, also when the semantic signal returned nothing),
combined_search fuses with the shifted weights 0.3 / 0.4 / 0.3 in place of
the caller-supplied base weights (defaults 0.6 / 0.4 / 0.6), and, for
signal lists with at most one hit per (type, id) key, every surviving
entry's final score is the sum over the contributing signals of that
signal's raw score times that signal's (shifted) weight. -/
theorem c7_weak_signal_reweighting (vecs kws fzs : List Hit) (vw kw fw : ℚ) (top_k : Nat)
    (hweak : ∀ v ∈ vecs, v.score < 0.5)
    (hv : (vecs.map keyH).Nodup) (hk : (kws.map keyH).Nodup) (hf : (fzs.map keyH).Nodup) :
    SearchUtils.combined_search vecs kws fzs vw kw fw top_k
      = SearchUtils.combineAndRank 0.3 0.4 0.3 vecs kws fzs top_k
    ∧ ∀ e ∈ SearchUtils.combined_search vecs kws fzs vw kw fw top_k,
        e.score = SearchUtils.signalContrib vecs 0.3 (SearchUtils.keyE e)
          + SearchUtils.signalContrib kws 0.4 (SearchUtils.keyE e)
          + SearchUtils.signalContrib fzs 0.3 (SearchUtils.keyE e) := by
  have hweakb : (if vecs.isEmpty then true
      else vecs.all (fun v => decide (v.score < 0.5))) = true := by
    cases vecs with
    | nil => rfl
    | cons a t =>
      simp only [List.isEmpty_cons, if_false, Bool.false_eq_true, List.all_eq_true,
        decide_eq_true_eq]
      intro v hvm
      exact hweak v hvm
  have heq : SearchUtils.combined_search vecs kws fzs vw kw fw top_k
      = SearchUtils.combineAndRank 0.3 0.4 0.3 vecs kws fzs top_k := by
    rw [SearchUtils.combined_search]
    rw [hweakb]
    rfl
  refine ⟨heq, ?_⟩
  intro e he
  rw [heq] at he
  have hmem : e ∈ SearchUtils.combinedScores 0.3 0.4 0.3 vecs kws fzs := mem_combineAndRank he
  have hpw := pairwise_combinedScores 0.3 0.4 0.3 vecs kws fzs
  have hls := lookupScore_of_mem hpw hmem
  rw [← hls]
  show SearchUtils.lookupScore
      (SearchUtils.addAll (SearchUtils.addAll (SearchUtils.addAll [] vecs 0.3) kws 0.4) fzs 0.3)
      (SearchUtils.keyE e) = _
  rw [lookupScore_addAll, lookupScore_addAll, lookupScore_addAll]
  rw [sumContrib_eq_signalContrib hv, sumContrib_eq_signalContrib hk,
    sumContrib_eq_signalContrib hf]
  show 0 + _ + _ + _ = _
  ring

/-- A weak vector hit, score 0.2, for the claim C7 witness. -/
def weakVecHit : Hit :=
  { type := "email".toList, id := "1".toList, score := 0.2, source := "vector".toList }

/-- Claim C7, witness: with one weak vector hit and one keyword hit the
fusion runs with the shifted weights. -/
theorem c7_weak_signal_reweighting_witness :
    SearchUtils.combined_search [weakVecHit] [kwHit2] [] 0.6 0.4 0.6 5
      = SearchUtils.combineAndRank 0.3 0.4 0.3 [weakVecHit] [kwHit2] [] 5 :=
  (c7_weak_signal_reweighting [weakVecHit] [kwHit2] [] 0.6 0.4 0.6 5
    (by
      intro v hvm
      rcases List.mem_singleton.mp hvm with rfl
      norm_num [weakVecHit])
    (by decide) (by decide) (by decide)).1

theorem prefix_of_prefix_append_nl {pat X T : Str} (hnl : '\n' ∉ pat)
    (h : pat.isPrefixOf (X ++ '\n' :: T) = true) : pat.isPrefixOf X = true := by
  rw [List.isPrefixOf_iff_prefix] at h ⊢
  rcases le_or_lt pat.length X.length with hle | hlt
  · have heq := List.prefix_iff_eq_take.mp h
    rw [List.take_append_eq_append_take, Nat.sub_eq_zero_of_le hle, List.take_zero,
      List.append_nil] at heq
    rw [heq]
    exact List.take_prefix _ _
  · exfalso
    have heq := List.prefix_iff_eq_take.mp h
    rw [List.take_append_eq_append_take] at heq
    have hpos : pat.length - X.length = (pat.length - X.length - 1) + 1 := by omega
    rw [hpos, List.take_succ_cons] at heq
    apply hnl
    rw [heq]
    exact List.mem_append_right _ (List.mem_cons_self _ _)

theorem findSub_append_nl {pat : Str} (P T : Str) (hne : pat ≠ []) (hnl : '\n' ∉ pat)
    (hP : containsSub pat P = false) (hT : pat.isPrefixOf T = true) :
    findSub pat (P ++ '\n' :: T) = some (P.length + 1) := by
  induction P with
  | nil =>
    rw [List.nil_append, findSub]
    have hpf : pat.isPrefixOf ('\n' :: T) = false := by
      cases pat with
      | nil => exact absurd rfl hne
      | cons p ps =>
        simp only [List.mem_cons, not_or] at hnl
        rw [List.isPrefixOf, Bool.and_eq_false_iff]
        exact Or.inl (beq_eq_false_iff_ne.mpr (fun hx => hnl.1 hx.symm))
    rw [hpf]
    simp only [Bool.false_eq_true, if_false]
    have hT0 : findSub pat T = some 0 := by
      cases T with
      | nil =>
        cases pat with
        | nil => exact absurd rfl hne
        | cons p ps => simp [List.isPrefixOf] at hT
      | cons c rest =>
        rw [findSub, if_pos hT]
    rw [hT0]
    rfl
  | cons c P2 ih =>
    rw [containsSub, Bool.or_eq_false_iff] at hP
    rw [List.cons_append, findSub]
    have hpf : pat.isPrefixOf (c :: (P2 ++ '\n' :: T)) = false := by
      cases hx : pat.isPrefixOf (c :: (P2 ++ '\n' :: T)) with
      | false => rfl
      | true =>
        rw [← List.cons_append] at hx
        rw [prefix_of_prefix_append_nl hnl hx] at hP
        exact absurd hP.1 (by simp)
    rw [hpf]
    simp only [Bool.false_eq_true, if_false]
    rw [ih hP.2]
    simp [List.length_cons]

theorem drop_append_len (P T : Str) (n : Nat) :
    (P ++ T).drop (P.length + n) = T.drop n := by
  induction P with
  | nil => simp
  | cons c P2 ih =>
    rw [List.cons_append, List.length_cons]
    have : P2.length + 1 + n = (P2.length + n) + 1 := by omega
    rw [this, List.drop_succ_cons]
    exact ih

theorem lowerStr_append_nl (P T : Str) :
    lowerStr (P ++ '\n' :: T) = lowerStr P ++ '\n' :: lowerStr T := by
  rw [lowerStr, List.map_append, List.map_cons]
  rfl

theorem removeRefLines_append_nl (P T : Str)
    (hP : containsSub (lowerStr Reference.refMarker) (lowerStr P) = false) :
    Reference.removeRefLines 0 false (P ++ '\n' :: T)
      = P ++ Reference.removeRefLines 0 false ('\n' :: T) := by
  induction P with
  | nil => rfl
  | cons c P2 ih =>
    have hP2 : (lowerStr Reference.refMarker).isPrefixOf
          (Char.toLower c :: lowerStr P2) = false
        ∧ containsSub (lowerStr Reference.refMarker) (lowerStr P2) = false := by
      rw [show lowerStr (c :: P2) = Char.toLower c :: lowerStr P2 from rfl, containsSub,
        Bool.or_eq_false_iff] at hP
      exact hP
    rw [List.cons_append, Reference.removeRefLines]
    have hpf : (lowerStr Reference.refMarker).isPrefixOf
        (lowerStr (c :: (P2 ++ '\n' :: T))) = false := by
      cases hx : (lowerStr Reference.refMarker).isPrefixOf
          (lowerStr (c :: (P2 ++ '\n' :: T))) with
      | false => rfl
      | true =>
        have hsplit : lowerStr (c :: (P2 ++ '\n' :: T))
            = lowerStr (c :: P2) ++ '\n' :: lowerStr T := by
          rw [← List.cons_append]
          exact lowerStr_append_nl (c :: P2) T
        rw [hsplit] at hx
        have := prefix_of_prefix_append_nl (by decide) hx
        rw [show lowerStr (c :: P2) = Char.toLower c :: lowerStr P2 from rfl] at this
        rw [this] at hP2
        exact absurd hP2.1 (by simp)
    rw [hpf]
    simp only [Bool.false_eq_true, if_false]
    rw [ih hP2.2, List.cons_append]

theorem rstrip_append_nl (X : Str) : rstrip (X ++ ['\n']) = rstrip X := by
  rw [rstrip, rstrip, List.reverse_append]
  rfl

theorem pyStrip_append_nl (P : Str) : pyStrip (P ++ ['\n']) = pyStrip P := by
  rw [pyStrip, pyStrip, lstrip, lstrip, List.dropWhile_append]
  by_cases h : (P.dropWhile isWs).isEmpty
  · rw [if_pos h]
    rw [List.isEmpty_iff] at h
    rw [h]
    rfl
  · rw [if_neg h]
    exact rstrip_append_nl _

theorem parse_after_clean_head (pfx : Str)
    (hpre : containsSub (lowerStr Reference.refMarker) (lowerStr pfx) = false) :
    Reference.parse_reference_ids (pfx ++ '\n' :: refIdsLine)
      = (pyStrip pfx, ["email_123".toList, "file_456".toList]) := by
  have hfind : findSub (lowerStr Reference.refMarker)
      (lowerStr (pfx ++ '\n' :: refIdsLine)) = some (pfx.length + 1) := by
    rw [lowerStr_append_nl]
    have hfs := @findSub_append_nl (lowerStr Reference.refMarker) (lowerStr pfx)
      (lowerStr refIdsLine) (by decide) (by decide) hpre (by decide)
    rw [hfs, lowerStr, List.length_map]
  simp only [Reference.parse_reference_ids, hfind]
  have hafter : (pfx ++ '\n' :: refIdsLine).drop (pfx.length + 1 + Reference.refMarker.length)
      = " email_123, file_456".toList := by
    have h15 : pfx.length + 1 + Reference.refMarker.length = pfx.length + 15 := by
      simp [Reference.refMarker]
    rw [h15, drop_append_len pfx ('\n' :: refIdsLine) 15]
    decide
  rw [hafter]
  rw [if_neg (by decide)]
  have hrem : Reference.removeRefLines 0 false (pfx ++ '\n' :: refIdsLine)
      = pfx ++ ['\n'] := by
    rw [removeRefLines_append_nl pfx refIdsLine hpre]
    have : Reference.removeRefLines 0 false ('\n' :: refIdsLine) = ['\n'] := by decide
    rw [this]
  rw [hrem, pyStrip_append_nl]
  congr 1

theorem fetch_refs_cons_split (db : List Reference.DbRow) (refId t i : Str)
    (rest : List Str) (hits : List Hit) (r : Reference.RefRecord)
    (hs : pySplitFirst '_' refId = some (t, i))
    (hf : Reference.fetch_full_reference db t i = some r) :
    Reference.fetch_references_by_ids db (refId :: rest) hits
      = r :: Reference.fetch_references_by_ids db rest hits := by
  simp only [Reference.fetch_references_by_ids, hs, hf]

/-- Claim C10, counterexample: parse_reference_ids resolves the first
REFERENCE_IDS line of the output (re.search takes the leftmost match), so
an output that carries an earlier REFERENCE_IDS: none line and ends in the
line REFERENCE_IDS: email_123, file_456 parses to an empty id list, not to
the final line's two ids. -/
theorem c10_first_marker_wins :
    (splitOnChar '\n' c10Bad).getLast? = some refIdsLine
    ∧ (Reference.parse_reference_ids c10Bad).2 = []
    ∧ (Reference.parse_reference_ids c10Bad).2
        ≠ ["email_123".toList, "file_456".toList] := by decide

/-- Claim C10 as amended: for a model output ending in the line
REFERENCE_IDS: email_123, file_456, provided the REFERENCE_IDS marker does
not occur (case-insensitively) earlier in the output, parse returns the
ids email_123 and file_456 with every REFERENCE_IDS line removed from the
returned (stripped) content; resolving those ids against a store
containing the two records yields exactly the two full records in input
order; and an id with no underscore and no matching prior hit is skipped
without aborting resolution of the remaining ids. -/
theorem c10_reference_round_trip (pfx : Str) (db : List Reference.DbRow) (hits : List Hit)
    (r1 r2 : Reference.RefRecord) (badId : Str) (rest : List Str)
    (hpre : containsSub (lowerStr Reference.refMarker) (lowerStr pfx) = false)
    (h1 : Reference.fetch_full_reference db ("email".toList) ("123".toList) = some r1)
    (h2 : Reference.fetch_full_reference db ("file".toList) ("456".toList) = some r2)
    (hbad1 : pySplitFirst '_' badId = none)
    (hbad2 : hits.find? (fun h => decide (h.id = badId)) = none) :
    Reference.parse_reference_ids (pfx ++ '\n' :: refIdsLine)
      = (pyStrip pfx, ["email_123".toList, "file_456".toList])
    ∧ Reference.fetch_references_by_ids db ["email_123".toList, "file_456".toList] hits
        = [r1, r2]
    ∧ Reference.fetch_references_by_ids db (badId :: rest) hits
        = Reference.fetch_references_by_ids db rest hits := by
  refine ⟨parse_after_clean_head pfx hpre, ?_, ?_⟩
  · rw [fetch_refs_cons_split db _ ("email".toList) ("123".toList) _ hits r1 (by decide) h1]
    rw [fetch_refs_cons_split db _ ("file".toList) ("456".toList) _ hits r2 (by decide) h2]
    rfl
  · simp only [Reference.fetch_references_by_ids, hbad1, hbad2]

/-- Claim C10, witness: the amended round trip at a concrete output,
store and id list. -/
theorem c10_reference_round_trip_witness :
    Reference.parse_reference_ids ("User has data.".toList ++ '\n' :: refIdsLine)
      = (pyStrip ("User has data.".toList), ["email_123".toList, "file_456".toList])
    ∧ Reference.fetch_references_by_ids [emailRow123, fileRow456]
        ["email_123".toList, "file_456".toList] []
        = [("type".toList, "email".toList) :: emailRow123.fields,
           ("type".toList, "file".toList) :: fileRow456.fields]
    ∧ Reference.fetch_references_by_ids [emailRow123, fileRow456] ("999".toList :: []) []
        = Reference.fetch_references_by_ids [emailRow123, fileRow456] [] [] :=
  c10_reference_round_trip ("User has data.".toList) [emailRow123, fileRow456] []
    (("type".toList, "email".toList) :: emailRow123.fields)
    (("type".toList, "file".toList) :: fileRow456.fields)
    ("999".toList) [] (by decide) (by decide) (by decide) (by decide) (by decide)
